import Mathlib

/-!
Verification of the sandboxed filesystem server (mcp-filesystem-remote).

This file gives a shallow embedding, in Lean, of the core operations of the
server and proves (or refutes) the specified properties about them:

* path validation (`validatePath` of the monolithic server `index.ts` and of
  the refactored library `src/filesystem/path-validation`),
* the text-patch engine (`normalizeLineEndings`, `applyFileEdits`),
* the streaming tail reader (`tailFile`),
* the `read_file` head/tail argument dispatch,
* the LRU+TTL `FileCache` (`get`, `set`, `invalidate`, `invalidateAll`),
* the bounded recursive `searchFiles`.

Text is modelled as `List Char` (one `Char` per byte; the sources handle
UTF-8 but every property and counterexample below lives in the ASCII
fragment, where JavaScript string indexing and Node `Buffer` byte slicing
agree with `List Char` operations).  JavaScript file-system calls
(`fs.stat`, `fs.realpath`) are modelled as explicit function arguments so
that behaviour on a concrete directory layout is computable.
-/

/-- Convenience: the character list of a string literal. -/
def s2l (s : String) : List Char := s.data

/-! ## Basic text utilities (JavaScript string semantics) -/

/-- JavaScript whitespace class for `trim` / `trimStart` / the regex `\s`,
restricted to the ASCII fragment used throughout. -/
def isWsChar (c : Char) : Bool :=
  c = ' ' ∨ c = '\t' ∨ c = '\n' ∨ c = '\r' ∨ c = '\x0b' ∨ c = '\x0c'

/-- JavaScript `String.prototype.trimStart`. -/
def jsTrimStart (l : List Char) : List Char := l.dropWhile isWsChar

/-- JavaScript `String.prototype.trim`. -/
def jsTrim (l : List Char) : List Char :=
  ((l.dropWhile isWsChar).reverse.dropWhile isWsChar).reverse

/-- The match of the regex `^\s*` : the leading whitespace of a line. -/
def leadingWs (l : List Char) : List Char := l.takeWhile isWsChar

/-- JavaScript `String.prototype.includes` (contiguous subsequence test).
`includes` of the empty string is `true`, as in JavaScript. -/
def containsSeq (needle : List Char) : List Char → Bool
  | [] => needle.isPrefixOf []
  | c :: rest => needle.isPrefixOf (c :: rest) || containsSeq needle rest

/-- JavaScript `String.prototype.replace` with a plain-string pattern:
replace only the first (leftmost) occurrence of `old` by `new_`.
If `old` is empty, `new_` is inserted at the front, as in JavaScript. -/
def replaceFirst (old new_ : List Char) : List Char → List Char
  | [] => if old.isPrefixOf [] then new_ else []
  | c :: rest =>
    if old.isPrefixOf (c :: rest) then new_ ++ (c :: rest).drop old.length
    else c :: replaceFirst old new_ rest

/-- `normalizeLineEndings` (index.ts line 592, cache/index.ts line 103):
`text.replace(/\r\n/g, "\n")`.  The global regex replace scans left to
right and never rescans replaced output: a CR-LF pair is consumed as a
whole, any other character is emitted and scanning continues right after
it, which is exactly this two-character lookahead recursion. -/
def normalizeLineEndings : List Char → List Char
  | [] => []
  | [c] => [c]
  | c1 :: c2 :: rest =>
    if c1 = '\r' ∧ c2 = '\n' then '\n' :: normalizeLineEndings rest
    else c1 :: normalizeLineEndings (c2 :: rest)

/-- JavaScript `str.split("\n")`. -/
def splitNl (l : List Char) : List (List Char) := l.splitOn '\n'

/-- JavaScript `arr.join("\n")` for a list of lines. -/
def joinNl (ls : List (List Char)) : List Char := [ '\n' ].intercalate ls

/-! ## PathGuard: `validatePath`

Two implementations exist in the repository:

* `validatePathIndex` embeds the monolithic server's `validatePath`
  (index.ts lines 408-445).  There the rejection of a symlink whose real
  path escapes the roots is a `throw` placed *inside* the `try` block whose
  own `catch` performs the parent-directory fallback, so the rejection is
  swallowed; likewise the parent-outside `throw` is swallowed by the inner
  `catch` and turned into a parent-not-found error.
* `validatePathLib` embeds the refactored library `validatePath`
  (src/filesystem, second document, lines 140-198).  Its `catch` blocks
  re-throw `PermissionDeniedError`, so sandbox violations do propagate.

Both check containment with `normalizedRequested.startsWith(dir)` - a plain
string-prefix test.

The model takes the already expanded, absolute, normalized requested path
(`expandHome` / `path.resolve` / `path.normalize` are identity on such
inputs, which covers every property below) and the file system's `realpath`
as an explicit partial function: `realpathFn p = none` models a failing
`fs.realpath(p)` (ENOENT), `some r` a successful resolution to `r`. -/

/-- Node `path.dirname` for absolute paths: strip the last `/`-separated
component; the dirname of a top-level entry is the root `/`. -/
def dirname (p : List Char) : List Char :=
  let r := ((p.reverse.dropWhile (· ≠ '/')).drop 1).reverse
  if r.isEmpty then ['/'] else r

/-- Outcomes of path validation. -/
inductive PathError where
  /-- The normalized requested path passes no root's prefix test. -/
  | outsideRoots : PathError
  /-- The symlink-resolved real path passes no root's prefix test. -/
  | symlinkOutside : PathError
  /-- The parent directory's real path passes no root's prefix test. -/
  | parentOutside : PathError
  /-- The parent directory does not exist. -/
  | parentNotFound : PathError
deriving DecidableEq, Repr

/-- The `startsWith`-based containment test shared by both implementations:
`allowedDirectories.some(dir => normalized.startsWith(dir))`. -/
def inAllowed (allowed : List (List Char)) (p : List Char) : Bool :=
  allowed.any (fun dir => dir.isPrefixOf p)

/-- `validatePath` of the monolithic server (index.ts lines 408-445).
The `Option`-valued `tryBlock` models the `try { ... }` body: `none` is any
exception reaching the `catch`, including the function's own "Access denied
- symlink target outside allowed directories" throw. -/
def validatePathIndex (realpathFn : List Char → Option (List Char))
    (allowed : List (List Char)) (absolute : List Char) :
    Except PathError (List Char) :=
  if ¬ inAllowed allowed absolute then .error .outsideRoots
  else
    let tryBlock : Option (List Char) := do
      let rp ← realpathFn absolute
      if inAllowed allowed rp then pure rp else none
    match tryBlock with
    | some rp => .ok rp
    | none =>
      -- catch: fall back to validating the parent directory; the
      -- parent-outside throw is itself swallowed by the inner catch and
      -- re-raised as "Parent directory does not exist".
      let parentTry : Option (List Char) := do
        let rpp ← realpathFn (dirname absolute)
        if inAllowed allowed rpp then pure absolute else none
      match parentTry with
      | some a => .ok a
      | none => .error .parentNotFound

/-- `validatePath` of the refactored library (filesystem module, lines
140-198).  Identical except that both `catch` blocks re-throw
`PermissionDeniedError`, so the two sandbox rejections survive. -/
def validatePathLib (realpathFn : List Char → Option (List Char))
    (allowed : List (List Char)) (absolute : List Char) :
    Except PathError (List Char) :=
  if ¬ inAllowed allowed absolute then .error .outsideRoots
  else
    match realpathFn absolute with
    | some rp =>
      if inAllowed allowed rp then .ok rp else .error .symlinkOutside
    | none =>
      match realpathFn (dirname absolute) with
      | some rpp =>
        if inAllowed allowed rpp then .ok absolute else .error .parentOutside
      | none => .error .parentNotFound

/-! ## PatchEngine: `applyFileEdits` (index.ts lines 611-687)

The diff library call `createTwoFilesPatch` is external; the embedding is
parametric in an arbitrary patch renderer `P`, applied to exactly the
arguments the code passes. -/

/-- One edit operation `{ oldText, newText }`. -/
structure Edit where
  oldText : List Char
  newText : List Char
deriving DecidableEq, Repr

/-- The fuzzy window comparison (index.ts lines 640-643): every line of
`oldLines` equals the corresponding window line after `trim` on both.  The
window is `cls.take oldLines.length`; the JavaScript loop bound
`i <= contentLines.length - oldLines.length` guarantees a full-length
window, which the `oldLines.length ≤ cls.length` guard mirrors. -/
def windowMatchAt (oldLines cls : List (List Char)) : Bool :=
  decide (oldLines.length ≤ cls.length) &&
    ((oldLines.zip (cls.take oldLines.length)).all
      (fun p => jsTrim p.1 = jsTrim p.2))

/-- The `for (let i = 0; i <= contentLines.length - oldLines.length; i++)`
search for the first matching window; returns the matching index. -/
def fuzzyFindGo (oldLines : List (List Char)) :
    List (List Char) → Nat → Option Nat
  | cls, i =>
    if windowMatchAt oldLines cls then some i
    else
      match cls with
      | [] => none
      | _ :: rest => fuzzyFindGo oldLines rest (i + 1)

/-- First index whose window fuzzily matches `oldLines`. -/
def fuzzyFind (oldLines contentLines : List (List Char)) : Option Nat :=
  fuzzyFindGo oldLines contentLines 0

/-- Re-indentation of the replacement lines (index.ts lines 646-658):
the first new line takes the matched first line's leading whitespace; a
later new line whose own indentation and the corresponding old line's
indentation are both non-empty gets the original indent plus
`max 0 (newIndent - oldIndent)` spaces; otherwise it is kept as is. -/
def reindentNewLines (originalIndent : List Char)
    (oldLines newLines : List (List Char)) : List (List Char) :=
  (newLines.zip (List.range newLines.length)).map (fun p =>
    let line := p.1
    let j := p.2
    if j = 0 then originalIndent ++ jsTrimStart line
    else
      let oldIndent := leadingWs (oldLines.getD j [])
      let newIndent := leadingWs line
      if oldIndent ≠ [] ∧ newIndent ≠ [] then
        originalIndent ++ List.replicate (newIndent.length - oldIndent.length) ' '
          ++ jsTrimStart line
      else line)

/-- One iteration of the edit loop (index.ts lines 621-669): exact
substring replacement first, then the fuzzy line-window fallback; `none`
models the `throw` when neither matches. -/
def editStep (content : List Char) (e : Edit) : Option (List Char) :=
  let old := normalizeLineEndings e.oldText
  let new_ := normalizeLineEndings e.newText
  if containsSeq old content then some (replaceFirst old new_ content)
  else
    let oldLines := splitNl old
    let contentLines := splitNl content
    match fuzzyFind oldLines contentLines with
    | none => none
    | some i =>
      let originalIndent := leadingWs (contentLines.getD i [])
      let newLines := reindentNewLines originalIndent oldLines (splitNl new_)
      some (joinNl (contentLines.take i ++ newLines
        ++ contentLines.drop (i + oldLines.length)))

/-- The sequential edit loop over the in-memory content; `none` models the
`throw` that aborts the whole call. -/
def applyEditsLoop : List Char → List Edit → Option (List Char)
  | c, [] => some c
  | c, e :: es =>
    match editStep c e with
    | some c' => applyEditsLoop c' es
    | none => none

/-- `createUnifiedDiff` (index.ts lines 596-609): normalize both sides once
more, then call the external renderer. -/
def createUnifiedDiff (P : List Char → List Char → List Char)
    (originalContent newContent : List Char) : List Char :=
  P (normalizeLineEndings originalContent) (normalizeLineEndings newContent)

/-- The `while (diff.includes("`".repeat(numBackticks))) numBackticks++`
search, fuelled: a run of `n` backticks can only occur while
`n ≤ diff.length`, so `diff.length + 1` steps always reach the first
non-occurring count. -/
def backtickCountGo (diff : List Char) : Nat → Nat → Nat
  | n, 0 => n
  | n, fuel + 1 =>
    if containsSeq (List.replicate n (Char.ofNat 96)) diff then
      backtickCountGo diff (n + 1) fuel
    else n

/-- Number of backticks used to fence the diff (starts at 3). -/
def backtickCount (diff : List Char) : Nat :=
  backtickCountGo diff 3 (diff.length + 1)

/-- The returned string: backtick fence, `diff` language tag, diff body,
closing fence, two newlines (index.ts line 680). -/
def formatDiff (diff : List Char) : List Char :=
  List.replicate (backtickCount diff) (Char.ofNat 96) ++ s2l "diff\n" ++ diff
    ++ List.replicate (backtickCount diff) (Char.ofNat 96) ++ s2l "\n\n"

/-- Observable outcome of one `applyFileEdits` call: the file's on-disk
content after the call, and either the returned formatted diff or the
thrown error (carrying the offending edit). -/
structure ApplyOutcome where
  diskContent : List Char
  result : Except Edit (List Char)

/-- `applyFileEdits` (index.ts lines 611-687).  `raw` is the on-disk
content read by `fs.readFile`; the write at line 683 is reached only after
every edit succeeded and only when not a dry run. -/
def applyFileEdits (P : List Char → List Char → List Char)
    (raw : List Char) (edits : List Edit) (dryRun : Bool) : ApplyOutcome :=
  let content := normalizeLineEndings raw
  match applyEditsLoop content edits with
  | none =>
    -- the throw happens before fs.writeFile: the file is untouched
    { diskContent := raw,
      result := .error (edits.getD 0 ⟨[], []⟩) }
  | some modified =>
    let diff := createUnifiedDiff P content modified
    { diskContent := if dryRun then raw else modified,
      result := .ok (formatDiff diff) }

/-! ## StreamReader: `tailFile` (index.ts lines 699-748)

The file is modelled by its byte content `content : List Char`; the
`fileHandle.read(chunk, 0, size, position)` call is the slice
`(content.drop position).take size`.  `CHUNK_SIZE` is 1024 as in the code.
`numLines` is the already-truthy `tail` argument (a natural number here;
the claims under study are about `n ≥ 0`). -/

/-- The backward chunk loop of `tailFile`.  State: `position` (next unread
byte boundary), `lines` (accumulated complete lines, earliest first),
`linesFound = lines.length`, and `remainingText` (the partial first line of
the already-processed suffix).  The loop is driven by a structural fuel
argument; every iteration decreases `position` by at least one, so fuel
equal to the initial `position` (as `tailFile` passes) never runs out
before the loop condition exits, and the fuelled recursion computes
exactly the JavaScript `while` loop. -/
def tailLoop (content : List Char) (numLines : Nat) :
    Nat → Nat → List (List Char) → Nat → List Char → List (List Char)
  | 0, _, lines, _, _ => lines
  | fuel + 1, position, lines, linesFound, remainingText =>
    if position = 0 ∨ numLines ≤ linesFound then lines
    else
      let size := min 1024 position
      let position' := position - size
      let readData := (content.drop position').take size
      if readData.isEmpty then lines
      else
        let chunkText := readData ++ remainingText
        let chunkLines := splitNl (normalizeLineEndings chunkText)
        let rem' := if 0 < position' then chunkLines.headD [] else remainingText
        let chunkLines' := if 0 < position' then chunkLines.tail else chunkLines
        let k := min (numLines - linesFound) chunkLines'.length
        let lines' := chunkLines'.drop (chunkLines'.length - k) ++ lines
        tailLoop content numLines fuel position' lines' (linesFound + k) rem'

/-- `tailFile(filePath, numLines)`: empty file short-circuits to the empty
string; otherwise run the backward loop from the end of the file and join
the collected lines with newlines. -/
def tailFile (content : List Char) (numLines : Nat) : List Char :=
  if content.length = 0 then []
  else joinNl (tailLoop content numLines content.length content.length [] 0 [])

/-! ## The `read_file` handler's head/tail dispatch

(index.ts lines 915-947 and the duplicated `handleToolCall` lines
1526-1551; both bodies are identical.)  `head` and `tail` are optional
numbers; the JavaScript guards `if (parsed.data.head && parsed.data.tail)`,
`if (parsed.data.tail)`, `if (parsed.data.head)` use *truthiness*: an
absent parameter and a supplied `0` are both falsy. -/

/-- Truthiness of an optional numeric argument. -/
def optTruthy : Option Int → Bool
  | none => false
  | some k => k ≠ 0

/-- What the `read_file` handler does with the two optional parameters. -/
inductive ReadFileOutcome where
  /-- The "Cannot specify both head and tail parameters simultaneously"
  error. -/
  | argError : ReadFileOutcome
  /-- Returns the last `n` lines via `tailFile`. -/
  | tailOf (n : Int) : ReadFileOutcome
  /-- Returns the first `n` lines via `headFile`. -/
  | headOf (n : Int) : ReadFileOutcome
  /-- Returns the whole file. -/
  | full : ReadFileOutcome
deriving DecidableEq, Repr

/-- The head/tail dispatch of the `read_file` handler. -/
def readFileDispatch (head? tail? : Option Int) : ReadFileOutcome :=
  if optTruthy head? && optTruthy tail? then .argError
  else if optTruthy tail? then .tailOf (tail?.getD 0)
  else if optTruthy head? then .headOf (head?.getD 0)
  else .full

/-! ## FileCache (src/cache/FileCache.ts)

The content cache is an `lru-cache` instance with `updateAgeOnGet: true`
and a `dispose` handler (FileCache.ts lines 37-50) that decrements the
running byte total.  `lru-cache` invokes `dispose` whenever an entry
leaves the map: on eviction, on `delete`, on overwriting `set`, and on a
stale entry being dropped by `get`.

The embedding carries the recency list explicitly (most recently used
first); `getOldestKey` walks the keys and takes the last one, exactly as
FileCache.getOldestKey (lines 246-254) does.  Timestamps are an explicit
`now : Nat` argument; `fs.stat` is an explicit function argument.  The
metadata cache is not modelled: no property under study observes it, and
it shares no state with the content cache or the size accounting.
The 10000-item cap of the content cache is far above every state
considered here and is not modelled. -/

/-- The result of `fs.stat` for a file. -/
structure FStat where
  mtimeMs : Int
  size : Nat
deriving DecidableEq, Repr

/-- A content-cache entry plus its `lru-cache` age field `start`. -/
structure CEntry where
  content : List Char
  mtime : Int
  size : Nat
  start : Nat
deriving DecidableEq, Repr

/-- The observable state of a `FileCache`. -/
structure CState where
  entries : List (String × CEntry)
  currentSize : Int
  enabled : Bool
  ttl : Nat
  maxSize : Nat
deriving DecidableEq

/-- Lookup in the content cache (no recency effect). -/
def findEntry (s : CState) (k : String) : Option CEntry :=
  (s.entries.find? (fun p => p.1 == k)).map Prod.snd

/-- Remove the (first) binding of `k` from the recency list. -/
def eraseKey (entries : List (String × CEntry)) (k : String) :
    List (String × CEntry) :=
  entries.eraseP (fun p => p.1 == k)

/-- `contentCache.delete(k)`: removing a present entry runs the `dispose`
handler, which decrements `currentSize` by the entry's size. -/
def lruDelete (s : CState) (k : String) : CState :=
  match findEntry s k with
  | none => s
  | some e =>
    { s with entries := eraseKey s.entries k,
             currentSize := s.currentSize - e.size }

/-- `lru-cache` staleness: with a non-zero ttl an entry is stale once
`now - start > ttl`. -/
def isStale (s : CState) (e : CEntry) (now : Nat) : Bool :=
  s.ttl ≠ 0 && s.ttl < now - e.start

/-- `contentCache.get(k)`: a stale entry is dropped (running `dispose`)
and reported absent; a fresh entry is moved to the front of the recency
list with its age reset (`updateAgeOnGet: true`). -/
def lruGet (s : CState) (k : String) (now : Nat) :
    Option CEntry × CState :=
  match findEntry s k with
  | none => (none, s)
  | some e =>
    if isStale s e now then (none, lruDelete s k)
    else
      let e' := { e with start := now }
      (some e', { s with entries := (k, e') :: eraseKey s.entries k })

/-- `contentCache.set(k, e)`: overwriting a present entry first runs
`dispose` on the old value (decrementing `currentSize` by its size); the
new entry is most recently used. -/
def lruSet (s : CState) (k : String) (e : CEntry) : CState :=
  match findEntry s k with
  | none => { s with entries := (k, e) :: s.entries }
  | some old =>
    { s with entries := (k, e) :: eraseKey s.entries k,
             currentSize := s.currentSize - old.size }

/-- `getOldestKey` (FileCache.ts lines 246-254): the last key in recency
order. -/
def getOldestKey (s : CState) : Option String :=
  s.entries.getLast?.map Prod.fst

/-- The eviction loop of `FileCache.set` (lines 125-133), fuelled by the
entry count: each iteration deletes one present entry, so `entries.length`
steps of fuel never run out before the loop condition fails. -/
def evictLoop (size : Nat) : CState → Nat → CState
  | s, 0 => s
  | s, fuel + 1 =>
    if s.currentSize + size > s.maxSize ∧ s.entries ≠ [] then
      match getOldestKey s with
      | some k => evictLoop size (lruDelete s k) fuel
      | none => s
    else s

/-- `FileCache.invalidate` (lines 198-210): a real LRU `get` (bumping
recency, dropping a stale entry), then a *manual* decrement of
`currentSize` for a present entry, then `contentCache.delete`, whose
`dispose` handler decrements `currentSize` a second time. -/
def FileCache.invalidate (s : CState) (k : String) (now : Nat) : CState :=
  match lruGet s k now with
  | (some e, s1) =>
    lruDelete { s1 with currentSize := s1.currentSize - e.size } k
  | (none, s1) => lruDelete s1 k

/-- `FileCache.get` (lines 69-108): disabled cache always misses; a cache
entry is only served when `fs.stat` succeeds and the current `mtimeMs`
equals the one recorded at insertion; a missing file or a changed mtime
invalidates the entry and misses. -/
def FileCache.get (fsys : String → Option FStat) (now : Nat) (s : CState)
    (k : String) : Option (List Char) × CState :=
  if ¬ s.enabled then (none, s)
  else
    match lruGet s k now with
    | (none, s1) => (none, s1)
    | (some e, s1) =>
      match fsys k with
      | none => (none, FileCache.invalidate s1 k now)
      | some st =>
        if st.mtimeMs ≠ e.mtime then (none, FileCache.invalidate s1 k now)
        else (some e.content, s1)

/-- `FileCache.set` (lines 113-166): a failing `stat` silently skips
caching; otherwise the eviction loop runs first, then the oversize check
(`size > maxSize`) skips the insert, and only then is the entry inserted
and `currentSize` increased. -/
def FileCache.set (fsys : String → Option FStat) (now : Nat) (s : CState)
    (k : String) (content : List Char) : CState :=
  if ¬ s.enabled then s
  else
    match fsys k with
    | none => s
    | some st =>
      let size := content.length
      let s1 := evictLoop size s s.entries.length
      if size > s1.maxSize then s1
      else
        let s2 := lruSet s1 k
          { content := content, mtime := st.mtimeMs, size := size, start := now }
        { s2 with currentSize := s2.currentSize + size }

/-- `FileCache.invalidateAll` (lines 215-223): clear both caches and reset
the size counter to zero (the `dispose` calls fired by `clear()` are
overridden by the explicit reset). -/
def FileCache.invalidateAll (s : CState) : CState :=
  { s with entries := [], currentSize := 0 }

/-- The byte total of the live content-cache entries. -/
def liveSizeSum (s : CState) : Nat :=
  (s.entries.map (fun p => p.2.size)).sum

/-! ## Searcher: `searchFiles` (src/filesystem/search.ts lines 35-114)

The directory tree is an inductive value; `fs.readdir` of a directory
returns its children.  The per-entry `validatePath` call (an exception
skips the entry), the minimatch-based exclusion test and the
case-insensitive name match are abstract boolean functions of the entry's
path/name - every property proved below holds for all of them.  The
`AbortController` timeout is modelled by a step counter that advances one
tick per directory entry processed; the signal is aborted from step
`abortStep` on, which is exactly the monotone behaviour of the real
signal. -/

mutual
/-- A directory tree entry. -/
inductive FSNode where
  /-- A plain file. -/
  | file (name : List Char) : FSNode
  /-- A directory and its children in `readdir` order. -/
  | dir (name : List Char) (children : FSList) : FSNode

/-- A `readdir` listing (a list of entries; a separate mutual inductive so
the traversal below is mutually structurally recursive). -/
inductive FSList where
  /-- Empty listing. -/
  | nil : FSList
  /-- First entry and the rest of the listing. -/
  | cons (hd : FSNode) (tl : FSList) : FSList
end

/-- The entry's name. -/
def FSNode.name : FSNode → List Char
  | .file n => n
  | .dir n _ => n

/-- The fixed data of one `searchFiles` call. -/
structure SearchEnv where
  validOk : List Char → Bool
  excludedPath : List Char → Bool
  nameMatches : List Char → Bool
  abortStep : Nat
  maxResults : Nat

/-- The mutable state of the traversal. -/
structure SearchSt where
  results : List (List Char)
  step : Nat
deriving DecidableEq, Repr

/-- The guard `abortController.signal.aborted || results.length >=
maxResults` checked on function entry and before every entry. -/
def searchStopped (env : SearchEnv) (st : SearchSt) : Bool :=
  decide (env.abortStep ≤ st.step) || decide (env.maxResults ≤ st.results.length)

/-- The `for (const entry of entries)` loop body of `search`.  The
recursive `await search(fullPath)` on a subdirectory is its entry guard
(`aborted || results.length >= maxResults`, the first check of `search`)
followed by the loop over the subdirectory's entries; that guard is
inlined here so that the recursion is structural. -/
def searchEntries (env : SearchEnv) (cur : List Char) :
    FSList → SearchSt → SearchSt
  | .nil, st => st
  | .cons n rest, st =>
    if searchStopped env st then st
    else
      let st1 : SearchSt := { st with step := st.step + 1 }
      let fullPath := cur ++ '/' :: n.name
      if ¬ env.validOk fullPath then searchEntries env cur rest st1
      else if env.excludedPath fullPath then searchEntries env cur rest st1
      else
        let st2 := if env.nameMatches n.name then
          { st1 with results := st1.results ++ [fullPath] } else st1
        match n with
        | .file _ => searchEntries env cur rest st2
        | .dir _ ch =>
          searchEntries env cur rest
            (if searchStopped env st2 then st2 else searchEntries env fullPath ch st2)

/-- The recursive `search(currentPath)` of `searchFiles`: the entry guard,
then the loop over the directory's entries. -/
def searchDir (env : SearchEnv) (cur : List Char) (children : FSList)
    (st : SearchSt) : SearchSt :=
  if searchStopped env st then st
  else searchEntries env cur children st

/-- `searchFiles(rootPath, ...)`: run the traversal from the root's
children with an empty result list and return the accumulated matches. -/
def searchFiles (env : SearchEnv) (rootPath : List Char)
    (rootChildren : FSList) : List (List Char) :=
  (searchDir env rootPath rootChildren { results := [], step := 0 }).results

deriving instance DecidableEq for Except

/-! ## Concrete instances used by counterexamples and witnesses -/

/-- Layout for the naive-containment counterexample: the directory
`/data-other` exists and is its own real path, and so is the root
`/data`. -/
def fsRealC1 : List Char → Option (List Char) := fun q =>
  if q = s2l "/data-other" then some (s2l "/data-other")
  else if q = s2l "/data" then some (s2l "/data") else none

/-- Layout for the symlink-escape counterexample: `/data/link` is a
symlink whose real path is `/outside/secret`; the root `/data` is its own
real path. -/
def fsRealC2 : List Char → Option (List Char) := fun q =>
  if q = s2l "/data/link" then some (s2l "/outside/secret")
  else if q = s2l "/data" then some (s2l "/data") else none

/-- A concrete diff renderer for witnesses: pairs the two texts. -/
def pairDiff : List Char → List Char → List Char := fun a b => a ++ '|' :: b

/-- A stat function for the cache traces: files `a`, `b` and `c` exist
with mtime 0. -/
def fsStatABC : String → Option FStat := fun p =>
  if p = "a" ∨ p = "b" ∨ p = "c" then some { mtimeMs := 0, size := 4 } else none

/-- An empty, enabled cache with a 10-byte budget and a 1000 ms TTL. -/
def cacheSt0 : CState :=
  { entries := [], currentSize := 0, enabled := true, ttl := 1000, maxSize := 10 }

/-- C5 trace, step 1: cache `a` (4 bytes). -/
def cacheSt1 : CState := FileCache.set fsStatABC 0 cacheSt0 "a" (List.replicate 4 'x')

/-- C5 trace, step 2: cache `b` (4 bytes). -/
def cacheSt2 : CState := FileCache.set fsStatABC 0 cacheSt1 "b" (List.replicate 4 'x')

/-- C5 trace, step 3: invalidate `a` (double-decrements `currentSize`). -/
def cacheSt3 : CState := FileCache.invalidate cacheSt2 "a" 0

/-- C5 trace, step 4: cache `c` (8 bytes); the under-counted `currentSize`
lets it in without eviction. -/
def cacheSt4 : CState := FileCache.set fsStatABC 0 cacheSt3 "c" (List.replicate 8 'x')

/-- An enabled cache holding one 5-byte entry for `a`, correctly
accounted, with a 10-byte budget. -/
def cacheStA : CState :=
  { entries := [("a", { content := List.replicate 5 'x', mtime := 0, size := 5, start := 0 })],
    currentSize := 5, enabled := true, ttl := 1000, maxSize := 10 }

/-- Stat function for the oversized-entry counterexample: file `b` exists
with mtime 0. -/
def fsStatB : String → Option FStat := fun p =>
  if p = "b" then some { mtimeMs := 0, size := 11 } else none

/-- Stat function giving file `f` mtime 7. -/
def fsStatF : String → Option FStat := fun p =>
  if p = "f" then some { mtimeMs := 7, size := 3 } else none

/-- Stat function giving file `f` mtime 8 (the file was modified). -/
def fsStatFMod : String → Option FStat := fun p =>
  if p = "f" then some { mtimeMs := 8, size := 3 } else none

/-- A search environment that validates everything, excludes nothing,
matches every name, never times out within 1000 steps, and caps results
at 2. -/
def searchEnvCap : SearchEnv :=
  { validOk := fun _ => true,
    excludedPath := fun _ => false,
    nameMatches := fun _ => true,
    abortStep := 1000,
    maxResults := 2 }

/-- Like `searchEnvCap` but the abort signal fires from step 2 on and the
result cap is far away. -/
def searchEnvAbort : SearchEnv :=
  { validOk := fun _ => true,
    excludedPath := fun _ => false,
    nameMatches := fun _ => true,
    abortStep := 2,
    maxResults := 100 }

/-- A sample directory listing with four files in two levels. -/
def demoTree : FSList :=
  .cons (.file (s2l "x"))
    (.cons (.dir (s2l "d") (.cons (.file (s2l "y")) (.cons (.file (s2l "z")) .nil)))
      (.cons (.file (s2l "w")) .nil))

mutual
/-- Number of tree entries below (and including) a node; an induction
measure for the traversal proofs. -/
def fsSizeN : FSNode → Nat
  | .file _ => 1
  | .dir _ ch => 1 + fsSizeL ch

/-- Number of tree entries in a listing. -/
def fsSizeL : FSList → Nat
  | .nil => 0
  | .cons n rest => fsSizeN n + fsSizeL rest
end

/-! # Theorems -/

/-! ## C1: segment-aware containment (the code uses a plain prefix test) -/

/-- Claim C1 is refuted by the code: the spec requires the path
`/data-other` to be rejected with a sandbox violation when the only root
is `/data`, but both `validatePath` implementations test containment with
`startsWith` and therefore return `/data-other` as a valid path.  The
layout: `/data-other` exists and is its own real path. -/
theorem c1_naive_containment_eval :
    validatePathIndex fsRealC1 [s2l "/data"] (s2l "/data-other")
        = .ok (s2l "/data-other") ∧
    validatePathLib fsRealC1 [s2l "/data"] (s2l "/data-other")
        = .ok (s2l "/data-other") := by
  constructor <;> decide

/-! ## C2: symlink escape must fail validation -/

/-- Claim C2 is refuted by the monolithic server: for `/data/link`, a
symlink inside the root `/data` whose real path `/outside/secret` escapes
every root, `validatePath` of index.ts *returns the path* - its own
"symlink target outside allowed directories" throw is swallowed by the
enclosing catch, which then accepts the path via the parent-directory
check (the parent `/data` resolves into the root).  The refactored
library implementation re-throws the violation, confirming the intended
behaviour. -/
theorem c2_symlink_fallback_eval :
    validatePathIndex fsRealC2 [s2l "/data"] (s2l "/data/link")
        = .ok (s2l "/data/link") ∧
    validatePathLib fsRealC2 [s2l "/data"] (s2l "/data/link")
        = .error .symlinkOutside := by
  constructor <;> decide

/-! ## C9: head and tail supplied together -/

/-- Claim C9 as stated is false: the guard uses JavaScript truthiness, so
supplying `head: 0` together with `tail: 1` raises no error - the call
returns tail content. -/
theorem c9_zero_head_counterexample :
    readFileDispatch (some 0) (some 1) = .tailOf 1 ∧
    readFileDispatch (some 0) (some 1) ≠ .argError := by
  decide

/-- Claim C9, amended: when both `head` and `tail` are supplied *and both
are non-zero*, the `read_file` handler fails with the caller-argument
error and returns neither head nor tail content. -/
theorem c9_both_truthy_error (h t : Int) (hh : h ≠ 0) (ht : t ≠ 0) :
    readFileDispatch (some h) (some t) = .argError := by
  simp [readFileDispatch, optTruthy, hh, ht]

/-- Witness for `c9_both_truthy_error` at `head = 5`, `tail = 7`. -/
theorem c9_both_truthy_error_witness :
    (5 : Int) ≠ 0 ∧ (7 : Int) ≠ 0 ∧
    readFileDispatch (some 5) (some 7) = .argError :=
  ⟨by decide, by decide, c9_both_truthy_error 5 7 (by decide) (by decide)⟩

/-! ## C5: the cache size invariant does not hold -/

/-- Claim C5 is refuted by the code: `invalidate` decrements
`currentSize` manually *and* a second time through the lru-cache
`dispose` handler that `contentCache.delete` triggers.  After the
four-operation trace `set a(4); set b(4); invalidate a; set c(8)` against
a 10-byte budget, the under-counted `currentSize` (8) lets `c` in without
eviction: the live entries hold 12 bytes, exceeding the budget, and the
tracked `currentSize` differs from the live sum. -/
theorem c5_size_invariant_violated_eval :
    liveSizeSum cacheSt4 = 12 ∧
    cacheSt4.maxSize = 10 ∧
    cacheSt4.maxSize < liveSizeSum cacheSt4 ∧
    cacheSt4.currentSize = 8 ∧
    cacheSt4.currentSize ≠ (liveSizeSum cacheSt4 : Int) := by
  refine ⟨by decide, by decide, by decide, by decide, by decide⟩

/-! ## C4: an oversized entry is not a no-op (counterexample), but it
inserts nothing and empties the cache (amended) -/

/-- Claim C4 as stated is false: inserting an 11-byte content into a
10-byte-budget cache holding one correctly-accounted 5-byte entry is not
a no-op - the eviction loop runs *before* the oversize check and evicts
the existing entry. -/
theorem c4_oversized_set_counterexample :
    (FileCache.set fsStatB 0 cacheStA "b" (List.replicate 11 'y')).entries = [] ∧
    cacheStA.entries ≠ [] ∧
    FileCache.set fsStatB 0 cacheStA "b" (List.replicate 11 'y') ≠ cacheStA := by
  refine ⟨by decide, by decide, by decide⟩

/-- Accounting of removing the first binding of a key: the live byte sum
splits into the removed entry's size plus the remaining sum, and the
length drops by one. -/
theorem entries_erase_accounting (k : String) :
    ∀ (entries : List (String × CEntry)) (e : String × CEntry),
      entries.find? (fun p => p.1 == k) = some e →
      ((entries.map (fun p => p.2.size)).sum
          = e.2.size + ((entries.eraseP (fun p => p.1 == k)).map
              (fun p => p.2.size)).sum) ∧
      (entries.eraseP (fun p => p.1 == k)).length + 1 = entries.length := by
  intro entries
  induction entries with
  | nil => intro e h; simp at h
  | cons p rest ih =>
    intro e h
    by_cases hk : p.1 = k
    · have hfind : (p :: rest).find? (fun q => q.1 == k) = some p := by
        simp [List.find?, hk]
      rw [hfind] at h
      injection h with h
      subst h
      have herase : (p :: rest).eraseP (fun q => q.1 == k) = rest := by
        simp [List.eraseP_cons, hk]
      rw [herase]
      simp
    · have hb : (p.1 == k) = false := by simp [hk]
      have hfind : (p :: rest).find? (fun q => q.1 == k)
          = rest.find? (fun q => q.1 == k) := by
        simp [List.find?, hb]
      rw [hfind] at h
      obtain ⟨h1, h2⟩ := ih e h
      have herase : (p :: rest).eraseP (fun q => q.1 == k)
          = p :: rest.eraseP (fun q => q.1 == k) := by
        simp [List.eraseP_cons, hk]
      rw [herase]
      refine ⟨?_, ?_⟩
      · simp only [List.map_cons, List.sum_cons, h1]
        omega
      · simp only [List.length_cons]
        omega

/-- `lruDelete` does not touch the configuration fields. -/
theorem lruDelete_cfg (s : CState) (k : String) :
    (lruDelete s k).maxSize = s.maxSize ∧ (lruDelete s k).enabled = s.enabled ∧
    (lruDelete s k).ttl = s.ttl := by
  unfold lruDelete
  cases findEntry s k <;> simp

/-- Deleting the oldest key of a non-empty, correctly-accounted cache
keeps the accounting exact and shortens the entry list by one. -/
theorem lruDelete_oldest (s : CState) (k : String)
    (hwf : s.currentSize = (liveSizeSum s : Int))
    (hk : getOldestKey s = some k) :
    (lruDelete s k).currentSize = (liveSizeSum (lruDelete s k) : Int) ∧
    (lruDelete s k).entries.length + 1 = s.entries.length := by
  obtain ⟨pr, hpr, hprk⟩ : ∃ pr, s.entries.getLast? = some pr ∧ pr.1 = k := by
    unfold getOldestKey at hk
    cases hl : s.entries.getLast? with
    | none => rw [hl] at hk; simp at hk
    | some pr => rw [hl] at hk; simp at hk; exact ⟨pr, rfl, hk⟩
  have hmem : pr ∈ s.entries := List.mem_of_mem_getLast? (by rw [hpr]; rfl)
  have hsome : (s.entries.find? (fun p => p.1 == k)).isSome :=
    List.find?_isSome.mpr ⟨pr, hmem, by simp [hprk]⟩
  obtain ⟨e, he⟩ := Option.isSome_iff_exists.mp hsome
  have hfe : findEntry s k = some e.2 := by
    simp [findEntry, he]
  obtain ⟨hsum, hlen⟩ := entries_erase_accounting k s.entries e he
  constructor
  · unfold lruDelete
    rw [hfe]
    simp only [liveSizeSum] at hwf ⊢
    unfold eraseKey
    rw [hwf, hsum]
    push_cast
    ring
  · unfold lruDelete
    rw [hfe]
    simpa [eraseKey] using hlen

/-- `evictLoop` does not touch the configuration fields. -/
theorem evictLoop_cfg (size : Nat) :
    ∀ (fuel : Nat) (s : CState),
      (evictLoop size s fuel).maxSize = s.maxSize ∧
      (evictLoop size s fuel).enabled = s.enabled ∧
      (evictLoop size s fuel).ttl = s.ttl := by
  intro fuel
  induction fuel with
  | zero => intro s; simp [evictLoop]
  | succ fuel ih =>
    intro s
    rw [evictLoop]
    split
    · cases hk : getOldestKey s with
      | none => simp
      | some k =>
        obtain ⟨h1, h2, h3⟩ := ih (lruDelete s k)
        obtain ⟨g1, g2, g3⟩ := lruDelete_cfg s k
        simp [h1, h2, h3, g1, g2, g3]
    · simp

/-- When the incoming entry alone exceeds the budget, the eviction loop of
`FileCache.set` - run with fuel at least the entry count, as `set` does -
evicts every entry of a correctly-accounted cache and ends with
`currentSize = 0`. -/
theorem evictLoop_empties (size : Nat) :
    ∀ (fuel : Nat) (s : CState), s.entries.length ≤ fuel →
      s.currentSize = (liveSizeSum s : Int) →
      s.maxSize < size →
      (evictLoop size s fuel).entries = [] ∧
      (evictLoop size s fuel).currentSize = 0 := by
  intro fuel
  induction fuel with
  | zero =>
    intro s hlen hwf _
    have hnil : s.entries = [] := List.length_eq_zero.mp (Nat.le_zero.mp hlen)
    refine ⟨by simpa [evictLoop] using hnil, ?_⟩
    simp only [evictLoop]
    rw [hwf]
    simp [liveSizeSum, hnil]
  | succ fuel ih =>
    intro s hlen hwf hbig
    by_cases hne : s.entries = []
    · rw [evictLoop]
      rw [if_neg (by simp [hne])]
      refine ⟨hne, ?_⟩
      rw [hwf]
      simp [liveSizeSum, hne]
    · have hpos : (0 : Int) ≤ (liveSizeSum s : Int) := Int.ofNat_nonneg _
      have hcond : s.currentSize + (size : Int) > (s.maxSize : Int) := by
        rw [hwf]
        have : (s.maxSize : Int) < (size : Int) := by exact_mod_cast hbig
        omega
      have hlast : ∃ k, getOldestKey s = some k := by
        unfold getOldestKey
        cases hl : s.entries.getLast? with
        | none => exact absurd (List.getLast?_eq_none_iff.mp hl) hne
        | some pr => exact ⟨pr.1, rfl⟩
      obtain ⟨k, hk⟩ := hlast
      rw [evictLoop]
      rw [if_pos ⟨hcond, hne⟩, hk]
      obtain ⟨hwf', hlen'⟩ := lruDelete_oldest s k hwf hk
      have hlen'' : (lruDelete s k).entries.length ≤ fuel := by omega
      obtain ⟨hmax, _, _⟩ := lruDelete_cfg s k
      exact ih (lruDelete s k) hlen'' hwf' (by omega)

/-- Claim C4, amended: for a correctly-accounted enabled cache and a
content larger than the byte budget, `set` inserts nothing, but it is not
a no-op: the eviction loop runs before the oversize check, so every
existing entry is evicted - the content cache is left empty with
`currentSize = 0`. -/
theorem c4_oversized_set_empties
    (fsys : String → Option FStat) (now : Nat) (s : CState) (k : String)
    (content : List Char) (st : FStat)
    (hen : s.enabled = true) (hstat : fsys k = some st)
    (hwf : s.currentSize = (liveSizeSum s : Int))
    (hbig : s.maxSize < content.length) :
    (FileCache.set fsys now s k content).entries = [] ∧
    (FileCache.set fsys now s k content).currentSize = 0 := by
  obtain ⟨hev1, hev2⟩ :=
    evictLoop_empties content.length s.entries.length s (le_refl _) hwf hbig
  obtain ⟨hmax, _, _⟩ := evictLoop_cfg content.length s.entries.length s
  unfold FileCache.set
  rw [hstat]
  simp only [hen, Bool.not_true, Bool.false_eq_true, not_false_eq_true]
  rw [if_neg (by simp)]
  rw [if_pos (by rw [hmax]; exact hbig)]
  exact ⟨hev1, hev2⟩

/-- Witness for `c4_oversized_set_empties`: the 5-byte cache `cacheStA`
receiving the 11-byte content for `b` under a 10-byte budget. -/
theorem c4_oversized_set_empties_witness :
    cacheStA.enabled = true ∧
    fsStatB "b" = some { mtimeMs := 0, size := 11 } ∧
    cacheStA.currentSize = (liveSizeSum cacheStA : Int) ∧
    cacheStA.maxSize < (List.replicate 11 'y').length ∧
    (FileCache.set fsStatB 0 cacheStA "b" (List.replicate 11 'y')).entries = [] ∧
    (FileCache.set fsStatB 0 cacheStA "b" (List.replicate 11 'y')).currentSize = 0 := by
  refine ⟨rfl, by decide, by decide, by decide, ?_, ?_⟩
  · exact (c4_oversized_set_empties fsStatB 0 cacheStA "b" (List.replicate 11 'y')
      { mtimeMs := 0, size := 11 } rfl (by decide) (by decide) (by decide)).1
  · exact (c4_oversized_set_empties fsStatB 0 cacheStA "b" (List.replicate 11 'y')
      { mtimeMs := 0, size := 11 } rfl (by decide) (by decide) (by decide)).2

/-! ## C3: applyFileEdits is all-or-nothing -/

/-- Splitting the edit loop at any point: the loop over `pre ++ rest`
first runs `pre`, and aborts if that aborts. -/
theorem applyEditsLoop_append (pre rest : List Edit) :
    ∀ c, applyEditsLoop c (pre ++ rest) =
      match applyEditsLoop c pre with
      | some c' => applyEditsLoop c' rest
      | none => none := by
  induction pre with
  | nil => intro c; rfl
  | cons e es ih =>
    intro c
    simp only [List.cons_append, applyEditsLoop]
    cases editStep c e with
    | none => rfl
    | some c' => exact ih c'

/-- Claim C3: if some edit's `oldText` is found neither by the exact
substring match nor by the fuzzy whitespace-stripped line-window match
against the current in-memory content (the content after the preceding
edits), `applyFileEdits` fails the whole call and the on-disk content is
unchanged - no prefix of the edit list is written. -/
theorem c3_apply_edits_all_or_nothing
    (P : List Char → List Char → List Char) (raw : List Char)
    (pre : List Edit) (e : Edit) (rest : List Edit) (dryRun : Bool)
    (cMid : List Char)
    (hpre : applyEditsLoop (normalizeLineEndings raw) pre = some cMid)
    (hfail : editStep cMid e = none) :
    (∃ failed, (applyFileEdits P raw (pre ++ e :: rest) dryRun).result
        = .error failed) ∧
    (applyFileEdits P raw (pre ++ e :: rest) dryRun).diskContent = raw := by
  have hloop : applyEditsLoop (normalizeLineEndings raw) (pre ++ e :: rest) = none := by
    rw [applyEditsLoop_append, hpre]
    simp only [applyEditsLoop, hfail]
  constructor
  · refine ⟨(pre ++ e :: rest).getD 0 { oldText := [], newText := [] }, ?_⟩
    simp [applyFileEdits, hloop]
  · simp [applyFileEdits, hloop]

/-- Witness for `c3_apply_edits_all_or_nothing`: content `foo`, a single
edit whose `bar` matches nothing; the call fails and the file is kept. -/
theorem c3_apply_edits_all_or_nothing_witness :
    applyEditsLoop (normalizeLineEndings (s2l "foo")) [] = some (s2l "foo") ∧
    editStep (s2l "foo") { oldText := s2l "bar", newText := s2l "baz" } = none ∧
    ((∃ failed, (applyFileEdits pairDiff (s2l "foo")
        ([] ++ { oldText := s2l "bar", newText := s2l "baz" } :: []) false).result
          = .error failed) ∧
      (applyFileEdits pairDiff (s2l "foo")
        ([] ++ { oldText := s2l "bar", newText := s2l "baz" } :: []) false).diskContent
          = s2l "foo") :=
  ⟨by decide, by decide,
    c3_apply_edits_all_or_nothing pairDiff (s2l "foo") []
      { oldText := s2l "bar", newText := s2l "baz" } [] false (s2l "foo")
      (by decide) (by decide)⟩

/-! ## C10: normalization covers the whole file; the diff sees only the
normalized original -/

/-- Claim C10: on a successful non-dry-run call, the content written to
disk is the edit loop's result on the CRLF-to-LF-normalized original
content - CRLF pairs are normalized also in regions no edit touched - and
the returned diff is rendered from the normalized data only: the last
conjunct shows the result depends on the raw content only through its
normalization, for any dry-run flag.  (The concrete diff argument shows
the original side handed to the renderer: the code normalizes the
already-normalized content once more inside `createUnifiedDiff`.) -/
theorem c10_normalized_edit_write
    (P : List Char → List Char → List Char) (raw : List Char)
    (edits : List Edit) (m : List Char)
    (hm : applyEditsLoop (normalizeLineEndings raw) edits = some m) :
    (applyFileEdits P raw edits false).diskContent = m ∧
    (applyFileEdits P raw edits false).result =
      .ok (formatDiff (P (normalizeLineEndings (normalizeLineEndings raw))
        (normalizeLineEndings m))) ∧
    (∀ raw' dryRun, normalizeLineEndings raw' = normalizeLineEndings raw →
      (applyFileEdits P raw' edits dryRun).result =
        (applyFileEdits P raw edits dryRun).result) := by
  refine ⟨?_, ?_, ?_⟩
  · simp [applyFileEdits, hm]
  · simp [applyFileEdits, hm, createUnifiedDiff]
  · intro raw' dryRun hnorm
    unfold applyFileEdits
    rw [hnorm]
    cases h : applyEditsLoop (normalizeLineEndings raw) edits <;> simp only [h]

/-- Witness for `c10_normalized_edit_write`: the raw content `a\r\nb`
with no edits is written back as `a\nb` - the CRLF in a region no edit
touched is normalized. -/
theorem c10_normalized_edit_write_witness :
    applyEditsLoop (normalizeLineEndings (s2l "a\r\nb")) [] = some (s2l "a\nb") ∧
    (applyFileEdits pairDiff (s2l "a\r\nb") [] false).diskContent = s2l "a\nb" :=
  ⟨by decide,
    (c10_normalized_edit_write pairDiff (s2l "a\r\nb") [] (s2l "a\nb") (by decide)).1⟩

/-! ## C7: search is bounded by maxResults and the abort signal -/

/-- Every tree node counts at least itself. -/
theorem fsSizeN_pos (n : FSNode) : 1 ≤ fsSizeN n := by
  cases n <;> simp [fsSizeN]

/-- One-step unfolding of `searchEntries` on a non-empty listing. -/
theorem searchEntries_cons (env : SearchEnv) (cur : List Char) (n : FSNode)
    (rest : FSList) (st : SearchSt) :
    searchEntries env cur (.cons n rest) st =
      if searchStopped env st then st
      else
        let st1 : SearchSt := { st with step := st.step + 1 }
        let fullPath := cur ++ '/' :: n.name
        if ¬ env.validOk fullPath then searchEntries env cur rest st1
        else if env.excludedPath fullPath then searchEntries env cur rest st1
        else
          let st2 := if env.nameMatches n.name then
            { st1 with results := st1.results ++ [fullPath] } else st1
          match n with
          | .file _ => searchEntries env cur rest st2
          | .dir _ ch =>
            searchEntries env cur rest
              (if searchStopped env st2 then st2 else searchEntries env fullPath ch st2)
    := by cases n <;> rfl

/-- The traversal never pushes past the cap: if the accumulated results
respect the cap on entry, they respect it on exit.  Induction is on an
upper bound of the subtree size. -/
theorem searchEntries_le_aux (env : SearchEnv) :
    ∀ (m : Nat) (l : FSList) (cur : List Char) (st : SearchSt),
      fsSizeL l ≤ m → st.results.length ≤ env.maxResults →
      (searchEntries env cur l st).results.length ≤ env.maxResults := by
  intro m
  induction m with
  | zero =>
    intro l cur st hsz hb
    cases l with
    | nil =>
      have hnil : searchEntries env cur FSList.nil st = st := rfl
      rw [hnil]; exact hb
    | cons n rest =>
      exfalso
      have := fsSizeN_pos n
      simp [fsSizeL] at hsz
      omega
  | succ m ih =>
    intro l cur st hsz hb
    cases l with
    | nil =>
      have hnil : searchEntries env cur FSList.nil st = st := rfl
      rw [hnil]; exact hb
    | cons n rest =>
      have hposN := fsSizeN_pos n
      have hrest : fsSizeL rest ≤ m := by
        simp [fsSizeL] at hsz; omega
      rw [searchEntries_cons]
      by_cases hstop : searchStopped env st = true
      · rw [if_pos hstop]; exact hb
      · rw [if_neg hstop]
        have hlt : st.results.length < env.maxResults := by
          simp [searchStopped] at hstop
          omega
        dsimp only
        by_cases hval : env.validOk (cur ++ '/' :: n.name) = true
        · rw [if_neg (by simp [hval])]
          by_cases hex : env.excludedPath (cur ++ '/' :: n.name) = true
          · rw [if_pos hex]
            exact ih rest cur _ hrest (by simpa using hb)
          · rw [if_neg hex]
            have hst2 : (if env.nameMatches n.name then
                { results := st.results ++ [cur ++ '/' :: n.name], step := st.step + 1 }
                else { results := st.results, step := st.step + 1 }
                  : SearchSt).results.length ≤ env.maxResults := by
              by_cases hnm : env.nameMatches n.name = true
              · rw [if_pos hnm]; simp; omega
              · rw [if_neg hnm]; simpa using hb
            cases n with
            | file nm =>
              exact ih rest cur _ hrest hst2
            | dir nm ch =>
              have hch : fsSizeL ch ≤ m := by
                simp [fsSizeL, fsSizeN] at hsz; omega
              refine ih rest cur _ hrest ?_
              by_cases hs2 : searchStopped env
                  (if env.nameMatches (FSNode.dir nm ch).name then
                    { results := st.results ++ [cur ++ '/' :: (FSNode.dir nm ch).name],
                      step := st.step + 1 }
                    else { results := st.results, step := st.step + 1 }) = true
              · rw [if_pos hs2]; exact hst2
              · rw [if_neg hs2]; exact ih ch _ _ hch hst2
        · rw [if_pos (by simp [hval])]
          exact ih rest cur _ hrest (by simpa using hb)

/-- Claim C7: `searchFiles` returns at most `maxResults` matches, and the
traversal is halted - returning its state unchanged, recording nothing
further - as soon as the result cap is reached or the abort signal (the
timeout) has fired. -/
theorem c7_search_bounded :
    (∀ env rootPath rootChildren,
      (searchFiles env rootPath rootChildren).length ≤ env.maxResults) ∧
    (∀ env cur children st, env.maxResults ≤ st.results.length →
      searchDir env cur children st = st) ∧
    (∀ env cur children st, env.abortStep ≤ st.step →
      searchDir env cur children st = st) := by
  refine ⟨?_, ?_, ?_⟩
  · intro env rootPath rootChildren
    unfold searchFiles searchDir
    by_cases h : searchStopped env { results := [], step := 0 } = true
    · rw [if_pos h]; simp
    · rw [if_neg h]
      exact searchEntries_le_aux env (fsSizeL rootChildren) rootChildren rootPath _
        le_rfl (by simp)
  · intro env cur children st h
    unfold searchDir
    rw [if_pos (by simp [searchStopped, h])]
  · intro env cur children st h
    unfold searchDir
    rw [if_pos (by simp [searchStopped, h])]

/-- Witness for `c7_search_bounded` on the concrete environments and the
sample tree: the capped search returns at most 2 results; a state already
holding 2 results is returned unchanged; a state past the abort step is
returned unchanged. -/
theorem c7_search_bounded_witness :
    (searchFiles searchEnvCap (s2l "/r") demoTree).length ≤ searchEnvCap.maxResults ∧
    searchEnvCap.maxResults ≤
      (SearchSt.mk [s2l "/r/a", s2l "/r/b"] 0).results.length ∧
    searchDir searchEnvCap (s2l "/r") demoTree (SearchSt.mk [s2l "/r/a", s2l "/r/b"] 0)
      = SearchSt.mk [s2l "/r/a", s2l "/r/b"] 0 ∧
    searchEnvAbort.abortStep ≤ (SearchSt.mk [] 5).step ∧
    searchDir searchEnvAbort (s2l "/r") demoTree (SearchSt.mk [] 5)
      = SearchSt.mk [] 5 :=
  ⟨c7_search_bounded.1 searchEnvCap (s2l "/r") demoTree,
   by decide,
   c7_search_bounded.2.1 searchEnvCap (s2l "/r") demoTree _ (by decide),
   by decide,
   c7_search_bounded.2.2 searchEnvAbort (s2l "/r") demoTree _ (by decide)⟩

/-! ## C6: FileCache.get semantics -/

/-- Claim C6's set-get round trip fails for oversized contents: setting an
11-byte content into the empty 10-byte-budget cache caches nothing (the
mtime never changes), so the immediate get misses instead of returning
the content. -/
theorem c6_oversized_roundtrip_counterexample :
    (FileCache.get fsStatF 0
        (FileCache.set fsStatF 0 cacheSt0 "f" (List.replicate 11 'z')) "f").1
      = none ∧
    (FileCache.get fsStatF 0
        (FileCache.set fsStatF 0 cacheSt0 "f" (List.replicate 11 'z')) "f").1
      ≠ some (List.replicate 11 'z') := by
  refine ⟨by decide, by decide⟩

/-- Lookup of a state whose entry list starts with the binding `(k, e)`. -/
theorem findEntry_head (s : CState) (k : String) (e : CEntry)
    (l : List (String × CEntry)) (h : s.entries = (k, e) :: l) :
    findEntry s k = some e := by
  simp [findEntry, h, List.find?]

/-- After erasing the binding of `k` from a list with no duplicate keys,
no binding of `k` remains. -/
theorem findEntry_eraseKey_nodup (k : String) :
    ∀ (l : List (String × CEntry)), (l.map Prod.fst).Nodup →
      (l.eraseP (fun p => p.1 == k)).find? (fun p => p.1 == k) = none := by
  intro l
  induction l with
  | nil => intro _; simp
  | cons p rest ih =>
    intro h
    simp only [List.map_cons, List.nodup_cons] at h
    by_cases hp : p.1 = k
    · have herase : (p :: rest).eraseP (fun q => q.1 == k) = rest := by
        simp [List.eraseP_cons, hp]
      rw [herase]
      rw [List.find?_eq_none]
      intro x hx
      simp only [beq_iff_eq]
      intro hxk
      exact absurd (by rw [hp, ← hxk]; exact List.mem_map_of_mem _ hx) h.1
    · have hb : (p.1 == k) = false := by simp [hp]
      have herase : (p :: rest).eraseP (fun q => q.1 == k)
          = p :: rest.eraseP (fun q => q.1 == k) := by
        simp [List.eraseP_cons, hp]
      rw [herase]
      have hstep : (p :: rest.eraseP (fun q => q.1 == k)).find? (fun q => q.1 == k)
          = (rest.eraseP (fun q => q.1 == k)).find? (fun q => q.1 == k) := by
        simp [List.find?, hb]
      rw [hstep]
      exact ih h.2

/-- The hit characterisation of `FileCache.get`: with the cache enabled,
`get` returns content exactly when the key is present, unexpired, the
file still stats, and its current mtime equals the recorded one; the
returned content is the recorded content. -/
theorem cacheGet_hit_iff (fsys : String → Option FStat) (now : Nat)
    (s : CState) (k : String) (c : List Char) (hen : s.enabled = true) :
    (FileCache.get fsys now s k).1 = some c ↔
      ∃ e, findEntry s k = some e ∧ isStale s e now = false ∧
        (∃ st, fsys k = some st ∧ st.mtimeMs = e.mtime) ∧ c = e.content := by
  cases hf : findEntry s k with
  | none =>
    have hlg : lruGet s k now = (none, s) := by simp [lruGet, hf]
    simp [FileCache.get, hen, hlg, hf]
  | some e =>
    cases hstale : isStale s e now with
    | true =>
      have hlg : lruGet s k now = (none, lruDelete s k) := by
        simp [lruGet, hf, hstale]
      simp [FileCache.get, hen, hlg, hf, hstale]
    | false =>
      have hlg : lruGet s k now = (some { e with start := now },
          { s with entries := (k, { e with start := now }) :: eraseKey s.entries k }) := by
        simp [lruGet, hf, hstale]
      cases hfs : fsys k with
      | none =>
        simp [FileCache.get, hen, hlg, hf, hstale, hfs]
      | some st =>
        by_cases hmt : st.mtimeMs = e.mtime
        · simp only [FileCache.get, hen, hlg, hf, hstale, hfs, hmt]
          constructor
          · rintro h
            simp at h
            exact ⟨e, rfl, hstale, ⟨st, rfl, hmt⟩, h.symm⟩
          · rintro ⟨e', he', -, -, hc⟩
            injection he' with he'
            subst he'
            subst hc
            simp
        · simp [FileCache.get, hen, hlg, hf, hstale, hfs, hmt]

/-- Deleting an absent key is a no-op. -/
theorem lruDelete_absent (s : CState) (k : String)
    (h : findEntry s k = none) : lruDelete s k = s := by
  unfold lruDelete
  rw [h]

/-- `lruDelete` on a state whose list starts with the binding of `k`
erases exactly that head binding. -/
theorem lruDelete_head (s : CState) (k : String) (e : CEntry)
    (l : List (String × CEntry)) (h : s.entries = (k, e) :: l) :
    (lruDelete s k).entries = l := by
  have hfind := findEntry_head s k e l h
  simp [lruDelete, hfind, eraseKey, h, List.eraseP_cons]

/-- `FileCache.invalidate` on a state whose list starts with the binding
of `k`, with no further binding of `k` behind it, removes the binding:
afterwards the key is absent. -/
theorem invalidate_head_findEntry (now : Nat) (s : CState) (k : String)
    (e : CEntry) (l : List (String × CEntry))
    (h : s.entries = (k, e) :: l)
    (hnone : l.find? (fun p => p.1 == k) = none) :
    findEntry (FileCache.invalidate s k now) k = none := by
  have hfind : findEntry s k = some e := findEntry_head s k e l h
  have hekey : eraseKey s.entries k = l := by
    rw [h]; simp [eraseKey, List.eraseP_cons]
  have hfind_l : ∀ s' : CState, s'.entries = l → findEntry s' k = none := by
    intro s' h'
    unfold findEntry
    rw [h', hnone]
    rfl
  cases hstale : isStale s e now with
  | true =>
    have hlg : lruGet s k now = (none, lruDelete s k) := by
      simp [lruGet, hfind, hstale]
    have hdel : (lruDelete s k).entries = l := lruDelete_head s k e l h
    have h1 : findEntry (lruDelete s k) k = none := hfind_l _ hdel
    have h2 : lruDelete (lruDelete s k) k = lruDelete s k :=
      lruDelete_absent _ _ h1
    unfold FileCache.invalidate
    rw [hlg]
    show findEntry (lruDelete (lruDelete s k) k) k = none
    rw [h2]
    exact h1
  | false =>
    have hlg : lruGet s k now = (some { e with start := now },
        { s with entries := (k, { e with start := now }) :: l }) := by
      unfold lruGet
      rw [hfind]
      simp only [hstale, Bool.false_eq_true, if_false]
      rw [hekey]
    unfold FileCache.invalidate
    rw [hlg]
    refine hfind_l _ ?_
    exact lruDelete_head _ k { e with start := now } l rfl

/-- On an mtime mismatch or a vanished file, `get` misses and the entry is
removed (stated for duplicate-free key lists, which every reachable cache
state has). -/
theorem cacheGet_mismatch_invalidates (fsys : String → Option FStat) (now : Nat)
    (s : CState) (k : String) (e : CEntry) (hen : s.enabled = true)
    (hnod : (s.entries.map Prod.fst).Nodup)
    (hf : findEntry s k = some e) (hstale : isStale s e now = false)
    (hmm : fsys k = none ∨ ∃ st, fsys k = some st ∧ st.mtimeMs ≠ e.mtime) :
    (FileCache.get fsys now s k).1 = none ∧
    findEntry (FileCache.get fsys now s k).2 k = none := by
  have hlg : lruGet s k now = (some { e with start := now },
      { s with entries := (k, { e with start := now }) :: eraseKey s.entries k }) := by
    simp [lruGet, hf, hstale]
  have hnone : (eraseKey s.entries k).find? (fun p => p.1 == k) = none :=
    findEntry_eraseKey_nodup k s.entries hnod
  rcases hmm with hfs | ⟨st, hfs, hmt⟩
  · have hget : FileCache.get fsys now s k = (none, FileCache.invalidate
        { s with entries := (k, { e with start := now }) :: eraseKey s.entries k } k
        now) := by
      simp [FileCache.get, hen, hlg, hfs]
    rw [hget]
    exact ⟨rfl, invalidate_head_findEntry now _ k _ _ rfl hnone⟩
  · have hget : FileCache.get fsys now s k = (none, FileCache.invalidate
        { s with entries := (k, { e with start := now }) :: eraseKey s.entries k } k
        now) := by
      simp [FileCache.get, hen, hlg, hfs, hmt]
    rw [hget]
    exact ⟨rfl, invalidate_head_findEntry now _ k _ _ rfl hnone⟩

/-- `lruSet` puts the new binding at the front of the recency list and
leaves the configuration untouched. -/
theorem lruSet_shape (s : CState) (k : String) (e : CEntry) :
    (∃ tl, (lruSet s k e).entries = (k, e) :: tl) ∧
    (lruSet s k e).enabled = s.enabled ∧ (lruSet s k e).ttl = s.ttl := by
  unfold lruSet
  cases findEntry s k <;> exact ⟨⟨_, rfl⟩, rfl, rfl⟩

/-- A fitting `FileCache.set` stores the new entry (holding the stat's
mtime and the insertion time) at the front of the recency list, with the
configuration unchanged. -/
theorem cacheSet_shape (fsys : String → Option FStat) (now : Nat) (s : CState)
    (k : String) (content : List Char) (st : FStat)
    (hen : s.enabled = true) (hstat : fsys k = some st)
    (hfit : content.length ≤ s.maxSize) :
    (∃ tl, (FileCache.set fsys now s k content).entries =
        (k, { content := content, mtime := st.mtimeMs, size := content.length,
              start := now }) :: tl) ∧
    (FileCache.set fsys now s k content).enabled = true ∧
    (FileCache.set fsys now s k content).ttl = s.ttl := by
  obtain ⟨hmax, henb, httl⟩ := evictLoop_cfg content.length s.entries.length s
  obtain ⟨⟨tl, htl⟩, hen2, httl2⟩ :=
    lruSet_shape (evictLoop content.length s s.entries.length) k
      { content := content, mtime := st.mtimeMs, size := content.length, start := now }
  unfold FileCache.set
  rw [hstat]
  simp only [hen, Bool.not_true, Bool.false_eq_true, not_false_eq_true]
  rw [if_neg (by simp)]
  rw [if_neg (by rw [hmax]; omega)]
  exact ⟨⟨tl, htl⟩, by rw [hen2, henb, hen], by rw [httl2, httl]⟩

/-- Set-then-get round trip for a fitting content with unchanged stats:
the freshly cached content is returned. -/
theorem cacheGet_after_set (fsys : String → Option FStat) (now : Nat)
    (s : CState) (k : String) (content : List Char) (st : FStat)
    (hen : s.enabled = true) (hstat : fsys k = some st)
    (hfit : content.length ≤ s.maxSize) :
    (FileCache.get fsys now (FileCache.set fsys now s k content) k).1
      = some content := by
  obtain ⟨⟨tl, htl⟩, hen2, httl2⟩ := cacheSet_shape fsys now s k content st hen hstat hfit
  refine (cacheGet_hit_iff fsys now _ k content hen2).mpr ?_
  refine ⟨_, findEntry_head _ _ _ _ htl, ?_, ⟨st, hstat, rfl⟩, rfl⟩
  simp [isStale]

/-- After the file's mtime changes, get misses - whatever the time of the
lookup, so in particular also within the TTL window. -/
theorem cacheGet_after_set_mtime_changed (fsys fsys2 : String → Option FStat)
    (now now2 : Nat) (s : CState) (k : String) (content : List Char)
    (st st2 : FStat) (hen : s.enabled = true) (hstat : fsys k = some st)
    (hfit : content.length ≤ s.maxSize) (hstat2 : fsys2 k = some st2)
    (hmt : st2.mtimeMs ≠ st.mtimeMs) :
    (FileCache.get fsys2 now2 (FileCache.set fsys now s k content) k).1 = none := by
  obtain ⟨⟨tl, htl⟩, hen2, httl2⟩ := cacheSet_shape fsys now s k content st hen hstat hfit
  cases hval : (FileCache.get fsys2 now2 (FileCache.set fsys now s k content) k).1 with
  | none => rfl
  | some c =>
    obtain ⟨e, hfe, -, ⟨st', hst', hmteq⟩, -⟩ :=
      (cacheGet_hit_iff fsys2 now2 _ k c hen2).mp hval
    rw [findEntry_head _ _ _ _ htl] at hfe
    injection hfe with hfe
    rw [hstat2] at hst'
    injection hst' with hst'
    subst hst'
    subst hfe
    exact absurd hmteq hmt

/-- Claim C6, amended: with the cache enabled, `FileCache.get` returns
the cached content exactly when an unexpired entry is present and the
file's current mtime equals the recorded one; on any mismatch, including
a vanished file, the entry is invalidated and get misses; get right after
a `set` of a content that fits the byte budget returns that content when
the mtime is unchanged (oversized contents are never cached, so that
round trip misses - the amendment); and after the mtime changes, get
misses at any later time, in particular still within the TTL window. -/
theorem c6_cache_get_semantics :
    (∀ fsys now s k c, s.enabled = true →
      ((FileCache.get fsys now s k).1 = some c ↔
        ∃ e, findEntry s k = some e ∧ isStale s e now = false ∧
          (∃ st, fsys k = some st ∧ st.mtimeMs = e.mtime) ∧ c = e.content)) ∧
    (∀ fsys now s k e, s.enabled = true → (s.entries.map Prod.fst).Nodup →
      findEntry s k = some e → isStale s e now = false →
      (fsys k = none ∨ ∃ st, fsys k = some st ∧ st.mtimeMs ≠ e.mtime) →
      (FileCache.get fsys now s k).1 = none ∧
      findEntry (FileCache.get fsys now s k).2 k = none) ∧
    (∀ fsys now s k content st, s.enabled = true → fsys k = some st →
      content.length ≤ s.maxSize →
      (FileCache.get fsys now (FileCache.set fsys now s k content) k).1
        = some content) ∧
    (∀ fsys fsys2 now now2 s k content st st2, s.enabled = true →
      fsys k = some st → content.length ≤ s.maxSize → fsys2 k = some st2 →
      st2.mtimeMs ≠ st.mtimeMs →
      (FileCache.get fsys2 now2 (FileCache.set fsys now s k content) k).1 = none) :=
  ⟨fun fsys now s k c hen => cacheGet_hit_iff fsys now s k c hen,
   fun fsys now s k e hen hnod hf hstale hmm =>
     cacheGet_mismatch_invalidates fsys now s k e hen hnod hf hstale hmm,
   fun fsys now s k content st hen hstat hfit =>
     cacheGet_after_set fsys now s k content st hen hstat hfit,
   fun fsys fsys2 now now2 s k content st st2 hen hstat hfit hstat2 hmt =>
     cacheGet_after_set_mtime_changed fsys fsys2 now now2 s k content st st2
       hen hstat hfit hstat2 hmt⟩

/-- Witness for `c6_cache_get_semantics`: the empty cache `cacheSt0`, file
`f` with mtime 7; a 3-byte set-then-get returns the content; after the
mtime changes to 8 the same get, at time 0 (well within the 1000 ms TTL),
misses. -/
theorem c6_cache_get_semantics_witness :
    cacheSt0.enabled = true ∧
    fsStatF "f" = some { mtimeMs := 7, size := 3 } ∧
    (s2l "abc").length ≤ cacheSt0.maxSize ∧
    (FileCache.get fsStatF 0 (FileCache.set fsStatF 0 cacheSt0 "f" (s2l "abc")) "f").1
      = some (s2l "abc") ∧
    fsStatFMod "f" = some { mtimeMs := 8, size := 3 } ∧
    ({ mtimeMs := 8, size := 3 } : FStat).mtimeMs
      ≠ ({ mtimeMs := 7, size := 3 } : FStat).mtimeMs ∧
    (FileCache.get fsStatFMod 0 (FileCache.set fsStatF 0 cacheSt0 "f" (s2l "abc")) "f").1
      = none :=
  ⟨rfl, by decide, by decide,
   c6_cache_get_semantics.2.2.1 fsStatF 0 cacheSt0 "f" (s2l "abc")
     { mtimeMs := 7, size := 3 } rfl (by decide) (by decide),
   by decide, by decide,
   c6_cache_get_semantics.2.2.2 fsStatF fsStatFMod 0 0 cacheSt0 "f" (s2l "abc")
     { mtimeMs := 7, size := 3 } { mtimeMs := 8, size := 3 } rfl (by decide)
     (by decide) (by decide) (by decide)⟩

/-! ## C8: tailFile -/

/-- Claim C8 as stated is false: the file `a\r\nb` has 2 lines, but
`tailFile` with `n = 2` returns the CRLF-normalized text `a\nb`, not the
entire file content (every chunk is passed through
`normalizeLineEndings` before splitting). -/
theorem c8_crlf_counterexample :
    (splitNl (normalizeLineEndings (s2l "a\r\nb"))).length = 2 ∧
    tailFile (s2l "a\r\nb") 2 = s2l "a\nb" ∧
    tailFile (s2l "a\r\nb") 2 ≠ s2l "a\r\nb" := by
  refine ⟨by decide, by decide, by decide⟩

/-- `splitNl` is `splitOnP` with the newline test. -/
theorem splitNl_eq (l : List Char) :
    splitNl l = l.splitOnP (fun c => c == '\n') := rfl

/-- On carriage-return-free text, `normalizeLineEndings` is the
identity. -/
theorem normalizeLineEndings_id (l : List Char) (h : '\r' ∉ l) :
    normalizeLineEndings l = l := by
  induction l with
  | nil => rfl
  | cons c rest ih =>
    cases rest with
    | nil => rfl
    | cons c2 rest2 =>
      have hc : c ≠ '\r' := fun hc => h (hc ▸ List.mem_cons_self c _)
      have hrest : '\r' ∉ c2 :: rest2 := fun hm => h (List.mem_cons_of_mem c hm)
      simp only [normalizeLineEndings]
      rw [if_neg (by intro hand; exact hc hand.1)]
      rw [ih hrest]

/-- Characters of a `splitOnP` piece are characters of the original
text. -/
theorem mem_of_mem_splitOnP (p : Char → Bool) :
    ∀ (l piece : List Char), piece ∈ l.splitOnP p → ∀ c ∈ piece, c ∈ l := by
  intro l
  induction l with
  | nil =>
    intro piece hp c hc
    rw [List.splitOnP_nil] at hp
    simp at hp
    subst hp
    simp at hc
  | cons x xs ih =>
    intro piece hp c hc
    rw [List.splitOnP_cons] at hp
    by_cases hx : p x = true
    · rw [if_pos hx] at hp
      rcases List.mem_cons.mp hp with h | h
      · subst h; simp at hc
      · exact List.mem_cons_of_mem x (ih piece h c hc)
    · rw [if_neg hx] at hp
      cases hsp : xs.splitOnP p with
      | nil => exact absurd hsp (List.splitOnP_ne_nil p xs)
      | cons hd tl =>
        rw [hsp] at hp
        simp only [List.modifyHead] at hp
        rcases List.mem_cons.mp hp with h | h
        · subst h
          rcases List.mem_cons.mp hc with h | h
          · exact h ▸ List.mem_cons_self x xs
          · refine List.mem_cons_of_mem x (ih hd ?_ c h)
            rw [hsp]; exact List.mem_cons_self hd tl
        · refine List.mem_cons_of_mem x (ih piece ?_ c hc)
          rw [hsp]; exact List.mem_cons_of_mem hd h

/-- No character of a `splitOnP` piece satisfies the separator test. -/
theorem not_sep_of_mem_splitOnP (p : Char → Bool) :
    ∀ (l piece : List Char), piece ∈ l.splitOnP p → ∀ c ∈ piece, p c = false := by
  intro l
  induction l with
  | nil =>
    intro piece hp c hc
    rw [List.splitOnP_nil] at hp
    simp at hp
    subst hp
    simp at hc
  | cons x xs ih =>
    intro piece hp c hc
    rw [List.splitOnP_cons] at hp
    by_cases hx : p x = true
    · rw [if_pos hx] at hp
      rcases List.mem_cons.mp hp with h | h
      · subst h; simp at hc
      · exact ih piece h c hc
    · rw [if_neg hx] at hp
      cases hsp : xs.splitOnP p with
      | nil => exact absurd hsp (List.splitOnP_ne_nil p xs)
      | cons hd tl =>
        rw [hsp] at hp
        simp only [List.modifyHead] at hp
        rcases List.mem_cons.mp hp with h | h
        · subst h
          rcases List.mem_cons.mp hc with h | h
          · subst h; simpa using hx
          · refine ih hd ?_ c h
            rw [hsp]; exact List.mem_cons_self hd tl
        · refine ih piece ?_ c hc
          rw [hsp]; exact List.mem_cons_of_mem hd h

/-- `modifyHead` distributes over an append with a non-empty left part. -/
theorem modifyHead_append_left (f : List Char → List Char)
    (xs ys : List (List Char)) (h : xs ≠ []) :
    (xs ++ ys).modifyHead f = xs.modifyHead f ++ ys := by
  cases xs with
  | nil => exact absurd rfl h
  | cons a l => rfl

/-- Splitting around an explicit separator splits the two sides
independently. -/
theorem splitOnP_append_sep (p : Char → Bool) (sep : Char) (hsep : p sep = true) :
    ∀ (s t : List Char),
      (s ++ sep :: t).splitOnP p = s.splitOnP p ++ t.splitOnP p := by
  intro s
  induction s with
  | nil =>
    intro t
    rw [List.nil_append, List.splitOnP_cons, if_pos hsep, List.splitOnP_nil]
    rfl
  | cons a s' ih =>
    intro t
    rw [List.cons_append, List.splitOnP_cons, List.splitOnP_cons]
    by_cases ha : p a = true
    · rw [if_pos ha, if_pos ha, ih]
      rfl
    · rw [if_neg ha, if_neg ha, ih]
      exact modifyHead_append_left _ _ _ (List.splitOnP_ne_nil p s')

/-- Joining with newlines is the left inverse of `splitNl`. -/
theorem joinNl_splitNl (l : List Char) : joinNl (splitNl l) = l :=
  List.intercalate_splitOn l '\n'

/-- Joining a single line is that line. -/
theorem joinNl_singleton (x : List Char) : joinNl [x] = x := by
  simp [joinNl, List.intercalate]

/-- Joining at least two lines: first line, newline, rest. -/
theorem joinNl_cons_cons (x y : List Char) (zs : List (List Char)) :
    joinNl (x :: y :: zs) = x ++ '\n' :: joinNl (y :: zs) := by
  simp [joinNl, List.intercalate, List.intersperse]

/-- `splitNl` is the left inverse of `joinNl` on non-empty lists of
newline-free lines. -/
theorem splitNl_joinNl (ls : List (List Char)) (hne : ls ≠ [])
    (hfree : ∀ piece ∈ ls, '\n' ∉ piece) :
    splitNl (joinNl ls) = ls :=
  List.splitOn_intercalate ls '\n' hfree hne

/-- `splitNl` never returns the empty list. -/
theorem splitNl_ne_nil (l : List Char) : splitNl l ≠ [] := by
  rw [splitNl_eq]
  exact List.splitOnP_ne_nil _ l

/-- Extending a text on the left only touches the first line of its
split: if `u` splits as `rem :: lines`, then `a ++ u` splits as the split
of `a ++ rem` followed by `lines`. -/
theorem splitNl_append_of_split (a u rem : List Char) (lines : List (List Char))
    (h : splitNl u = rem :: lines) :
    splitNl (a ++ u) = splitNl (a ++ rem) ++ lines := by
  have hu : u = joinNl (rem :: lines) := by
    conv_lhs => rw [← joinNl_splitNl u]
    rw [h]
  have hfree : ∀ piece ∈ splitNl u, '\n' ∉ piece := by
    intro piece hp hmem
    have hx := not_sep_of_mem_splitOnP (fun c => c == '\n') u piece
      (by rw [← splitNl_eq]; exact hp) '\n' hmem
    simp at hx
  cases lines with
  | nil =>
    rw [hu, joinNl_singleton]
    simp
  | cons l ls =>
    rw [hu, joinNl_cons_cons, ← List.append_assoc]
    rw [splitNl_eq, splitOnP_append_sep _ '\n' (by simp) (a ++ rem) (joinNl (l :: ls))]
    rw [← splitNl_eq, ← splitNl_eq]
    congr 1
    apply splitNl_joinNl
    · simp
    · intro piece hp
      apply hfree
      rw [h]
      exact List.mem_cons_of_mem rem hp

/-- One-step unfolding of the fuelled tail loop. -/
theorem tailLoop_succ (content : List Char) (numLines fuel position : Nat)
    (lines : List (List Char)) (linesFound : Nat) (remainingText : List Char) :
    tailLoop content numLines (fuel + 1) position lines linesFound remainingText =
      if position = 0 ∨ numLines ≤ linesFound then lines
      else
        let size := min 1024 position
        let position' := position - size
        let readData := (content.drop position').take size
        if readData.isEmpty then lines
        else
          let chunkText := readData ++ remainingText
          let chunkLines := splitNl (normalizeLineEndings chunkText)
          let rem' := if 0 < position' then chunkLines.headD [] else remainingText
          let chunkLines' := if 0 < position' then chunkLines.tail else chunkLines
          let k := min (numLines - linesFound) chunkLines'.length
          let lines' := chunkLines'.drop (chunkLines'.length - k) ++ lines
          tailLoop content numLines fuel position' lines' (linesFound + k) rem' := rfl

/-- The loop at position 0 returns the accumulated lines as is. -/
theorem tailLoop_at_zero (content : List Char) (numLines fuel : Nat)
    (lines : List (List Char)) (linesFound : Nat) (rem : List Char) :
    tailLoop content numLines fuel 0 lines linesFound rem = lines := by
  cases fuel with
  | zero => rfl
  | succ fuel => rw [tailLoop_succ, if_pos (Or.inl rfl)]

/-- Reconstruction invariant of the backward tail loop on CR-free
content whose line count is within the requested number of lines: if the
processed suffix splits as `rem :: lines`, running the loop recovers the
full split of the content. -/
theorem tailLoop_reconstruct (content : List Char) (n : Nat)
    (hcr : '\r' ∉ content)
    (htot : (splitNl content).length ≤ n) :
    ∀ (fuel pos : Nat) (rem : List Char) (lines : List (List Char)),
      pos ≤ fuel → 0 < pos → pos ≤ content.length → '\r' ∉ rem →
      splitNl (content.drop pos) = rem :: lines →
      tailLoop content n fuel pos lines lines.length rem = splitNl content := by
  intro fuel
  induction fuel with
  | zero =>
    intro pos rem lines hpf hpos _ _ _
    omega
  | succ fuel ih =>
    intro pos rem lines hpf hpos hplen hremcr hinv
    have hsplitc : splitNl content = splitNl (content.take pos ++ rem) ++ lines := by
      conv_lhs => rw [← List.take_append_drop pos content]
      exact splitNl_append_of_split _ _ _ _ hinv
    have hlen1 : 1 ≤ (splitNl (content.take pos ++ rem)).length :=
      List.length_pos.mpr (splitNl_ne_nil _)
    have hlines_lt : lines.length < n := by
      have hh := htot
      rw [hsplitc, List.length_append] at hh
      omega
    rw [tailLoop_succ]
    rw [if_neg (by push_neg; exact ⟨by omega, by omega⟩)]
    dsimp only
    have hreadlen : ((content.drop (pos - min 1024 pos)).take (min 1024 pos)).length
        = min 1024 pos := by
      rw [List.length_take, List.length_drop]
      omega
    have hread_ne : ((content.drop (pos - min 1024 pos)).take (min 1024 pos)) ≠ [] := by
      intro hnil
      rw [hnil] at hreadlen
      simp at hreadlen
      omega
    have hread_empty : ((content.drop (pos - min 1024 pos)).take (min 1024 pos)).isEmpty
        = false := by
      simpa [List.isEmpty_iff] using hread_ne
    rw [hread_empty]
    simp only [Bool.false_eq_true, if_false]
    have hchunkcr : '\r' ∉ ((content.drop (pos - min 1024 pos)).take (min 1024 pos)
        ++ rem) := by
      intro hmem
      rcases List.mem_append.mp hmem with h | h
      · exact hcr (List.mem_of_mem_drop (List.mem_of_mem_take h))
      · exact hremcr h
    rw [normalizeLineEndings_id _ hchunkcr]
    have hdropsplit : content.drop (pos - min 1024 pos)
        = ((content.drop (pos - min 1024 pos)).take (min 1024 pos))
          ++ content.drop pos := by
      conv_lhs => rw [← List.take_append_drop (min 1024 pos)
        (content.drop (pos - min 1024 pos))]
      congr 1
      rw [List.drop_drop]
      congr 1
      omega
    have hsplit' : splitNl (content.drop (pos - min 1024 pos))
        = splitNl (((content.drop (pos - min 1024 pos)).take (min 1024 pos)) ++ rem)
          ++ lines := by
      conv_lhs => rw [hdropsplit]
      exact splitNl_append_of_split _ _ _ _ hinv
    by_cases hpz : 0 < pos - min 1024 pos
    · simp only [if_pos hpz]
      cases hCL : splitNl (((content.drop (pos - min 1024 pos)).take (min 1024 pos))
          ++ rem) with
      | nil => exact absurd hCL (splitNl_ne_nil _)
      | cons hd tl =>
        simp only [hCL, List.headD_cons, List.tail_cons]
        have hinv' : splitNl (content.drop (pos - min 1024 pos))
            = hd :: (tl ++ lines) := by
          rw [hsplit', hCL]
          rfl
        have hsplitc' : splitNl content
            = splitNl (content.take (pos - min 1024 pos) ++ hd) ++ (tl ++ lines) := by
          conv_lhs => rw [← List.take_append_drop (pos - min 1024 pos) content]
          exact splitNl_append_of_split _ _ _ _ hinv'
        have hlen1' : 1 ≤ (splitNl (content.take (pos - min 1024 pos) ++ hd)).length :=
          List.length_pos.mpr (splitNl_ne_nil _)
        have hroom : tl.length + lines.length + 1 ≤ n := by
          have hh := htot
          rw [hsplitc', List.length_append, List.length_append] at hh
          omega
        have hk : min (n - lines.length) tl.length = tl.length := by omega
        rw [hk, Nat.sub_self, List.drop_zero]
        have hhdcr : '\r' ∉ hd := by
          intro hmem
          refine hchunkcr (mem_of_mem_splitOnP (fun c => c == '\n') _ hd ?_ '\r' hmem)
          rw [← splitNl_eq, hCL]
          exact List.mem_cons_self hd tl
        have harg : lines.length + tl.length = (tl ++ lines).length := by
          rw [List.length_append]
          omega
        rw [harg]
        exact ih (pos - min 1024 pos) hd (tl ++ lines) (by omega) hpz (by omega)
          hhdcr hinv'
    · simp only [if_neg hpz]
      have hp0 : pos - min 1024 pos = 0 := by omega
      rw [hp0] at hsplit' ⊢
      simp only [List.drop_zero] at hsplit' ⊢
      have hroom : (splitNl (content.take (min 1024 pos) ++ rem)).length
          + lines.length ≤ n := by
        have hh := htot
        rw [hsplit', List.length_append] at hh
        omega
      have hk : min (n - lines.length)
            (splitNl (content.take (min 1024 pos) ++ rem)).length
          = (splitNl (content.take (min 1024 pos) ++ rem)).length := by omega
      rw [hk, Nat.sub_self, List.drop_zero]
      rw [tailLoop_at_zero]
      exact hsplit'.symm

/-- Claim C8, amended: `tailFile(path, 0)` returns the empty string;
`tailFile` on a zero-length file returns the empty string; and for a file
whose content contains no carriage return, `tailFile(path, n)` with `n`
at least the file's line count returns the entire file content - the
last line of a file with no trailing newline included.  (For files
containing CRLF sequences the returned text is chunk-wise normalized and
can differ from the raw content, which is what the counterexample
exhibits.) -/
theorem c8_tail_amended :
    (∀ content, tailFile content 0 = []) ∧
    (∀ n, tailFile [] n = []) ∧
    (∀ content n, '\r' ∉ content → (splitNl content).length ≤ n →
      tailFile content n = content) := by
  refine ⟨?_, ?_, ?_⟩
  · intro content
    unfold tailFile
    by_cases h : content.length = 0
    · rw [if_pos h]
    · rw [if_neg h]
      cases hL : content.length with
      | zero => exact absurd hL h
      | succ m =>
        rw [tailLoop_succ, if_pos (Or.inr (Nat.le_refl 0))]
        rfl
  · intro n
    rfl
  · intro content n hcr htot
    by_cases h : content.length = 0
    · have hnil : content = [] := List.length_eq_zero.mp h
      subst hnil
      unfold tailFile
      simp
    · unfold tailFile
      rw [if_neg h]
      have hpos : 0 < content.length := Nat.pos_of_ne_zero h
      have hinv : splitNl (content.drop content.length) = [] :: [] := by
        rw [List.drop_length]
        rfl
      rw [show (0 : Nat) = ([] : List (List Char)).length from rfl]
      rw [tailLoop_reconstruct content n hcr htot content.length content.length [] []
        (le_refl _) hpos (le_refl _) (by simp) hinv]
      exact joinNl_splitNl content

/-- Witness for `c8_tail_amended`: `n = 0` on a non-empty file, any `n`
on the empty file, and the 2-line CR-free file `a\nb` (no trailing
newline) fully recovered with `n = 7`. -/
theorem c8_tail_amended_witness :
    tailFile (s2l "abc") 0 = [] ∧
    tailFile ([] : List Char) 5 = [] ∧
    ('\r' ∉ s2l "a\nb" ∧ (splitNl (s2l "a\nb")).length ≤ 7 ∧
      tailFile (s2l "a\nb") 7 = s2l "a\nb") :=
  ⟨c8_tail_amended.1 (s2l "abc"),
   c8_tail_amended.2.1 5,
   by decide, by decide,
   c8_tail_amended.2.2 (s2l "a\nb") 7 (by decide) (by decide)⟩
